import Mathlib

/-!
Verification of the lexer in src/src/lexer/mod.rs (a hand-written scanner for a small
Algol-family language). The Rust source is shallowly embedded below: the source text is a
list of characters, positions are UTF-8 byte offsets into the source buffer, and every
sub-scanner of the tokenizer is translated as a structurally recursive function on the
remaining character list together with the byte count consumed for the current token
(mirroring Cursor bump semantics, where every consumed character advances the counter).
A possible Rust panic (the byte slicing of the source inside cook_identifier) is modelled
by an Option result, with none standing for the panic.
-/

set_option maxHeartbeats 1000000

namespace Lexer

/-- Token kinds, translated from the TokenKind enum of src/src/lexer/mod.rs. -/
inductive TokenKind where
  | COMMA | COLON | SEMICOLON | LPAREN | RPAREN | LBRACK | RBRACK | LCURLY | RCURLY | DOT
  | ASSIGN
  | PLUS | MINUS | TIMES | DIVIDE | PERCENT
  | EQ | NEQ | LT | LE | GT | GE | AND | OR
  | ARRAY | IF | THEN | ELSE | WHILE | FOR | TO | DO | LET | IN | END | OF | BREAK
  | FUNCTION | VAR | TYPE | NIL
  | ID | STRING | INT | FLOAT
  | COMMENT
  | EOF | UNKNOWN | WHITESPACE
  deriving DecidableEq, Repr

/-- TokenPos from the source: a half-open byte offset range into the source buffer. -/
structure TokenPos where
  lo : Nat
  hi : Nat
  deriving DecidableEq, Repr

/-- Token from the source: a kind paired with its position span. -/
structure Token where
  kind : TokenKind
  pos : TokenPos
  deriving DecidableEq, Repr

/-- Modelled from the spec: the sentinel character that Cursor lookahead returns past the
end of input (spec section 4.1: a defined sentinel, not a character present in valid
source, e.g. null). The file src/src/lexer/cursor.rs is not under src/. -/
def EOF_CHAR : Char := '\x00'

/-- UTF-8 byte length of a list of characters. -/
def utf8Len : List Char → Nat
  | [] => 0
  | c :: r => c.utf8Size + utf8Len r

/-- Modelled from the spec: the Cursor state (src/src/lexer/cursor.rs is not under src/).
It holds the remaining not-yet-consumed tail of the source (spec section 3) and the
amount consumed since the last reset. The spec fixes TokenPos as byte offsets into the
source buffer that the tokenizer advances by exactly this counter (sections 2, 3 and 6),
so the counter is modelled as the UTF-8 byte length of the consumed characters; every
bump of a character c below adds its byte size to the counter. -/
structure Cursor where
  rest : List Char
  lenAdvanced : Nat
  deriving DecidableEq, Repr

/-- Modelled from the spec: Cursor.peek_first on a remaining tail, lookahead without
consuming, returning the sentinel past the end. -/
def peekFirst (r : List Char) : Char := r.headD EOF_CHAR

/-- The tokenizer state: StringReader from the source, owning the full source, a cursor
over it, and the absolute scan position. -/
structure StringReader where
  src : List Char
  cursor : Cursor
  pos : Nat
  deriving DecidableEq, Repr

/-- StringReader::new from the source: a reader over the full source at position 0. -/
def new_reader (src : List Char) : StringReader :=
  ⟨src, ⟨src, 0⟩, 0⟩

/-- is_whitespace from the source: the fixed list of recognized whitespace characters. -/
def is_whitespace (c : Char) : Bool :=
  c = '\u0009' || c = '\u000A' || c = '\u000B' || c = '\u000C' || c = '\u000D' ||
  c = ' ' || c = '\u0085' || c = '\u200E' || c = '\u200F' ||
  c = '\u2028' || c = '\u2029'

/-- The character range 0 to 9 used by the dispatch and by cook_number. -/
def isDigitChar (c : Char) : Bool := '0' ≤ c && c ≤ '9'

/-- The ASCII letter ranges used by the dispatch of next_token. -/
def isLetterChar (c : Char) : Bool := ( 'a' ≤ c && c ≤ 'z') || ( 'A' ≤ c && c ≤ 'Z')

/-- The ranges accepted by the loop of cook_identifier: ASCII letters and digits. -/
def isAlnumChar (c : Char) : Bool := isLetterChar c || isDigitChar c

/-- Modelled from the spec: Cursor.bump_while (src/src/lexer/cursor.rs is not under
src/), consuming characters while the predicate holds on the next character, each
consumed character advancing the byte counter. -/
def bump_while (p : Char → Bool) : List Char → Nat → List Char × Nat
  | c :: r, acc => if p c then bump_while p r (acc + c.utf8Size) else (c :: r, acc)
  | [], acc => ([], acc)

/-- StringReader::whitespace from the source: bump_while is_whitespace, then the internal
WHITESPACE marker. -/
def whitespace (r : List Char) (acc : Nat) : TokenKind × List Char × Nat :=
  let p := bump_while is_whitespace r acc
  (.WHITESPACE, p.1, p.2)

/-- StringReader::colon from the source: an equals sign on peek_first is bumped giving
ASSIGN, otherwise COLON. -/
def colon (r : List Char) (acc : Nat) : TokenKind × List Char × Nat :=
  if peekFirst r = '=' then (.ASSIGN, r.tail, acc + 1) else (.COLON, r, acc)

/-- StringReader::less_than from the source: a greater sign on peek_first is bumped
giving NEQ, an equals sign is bumped giving LE, otherwise LT. -/
def less_than (r : List Char) (acc : Nat) : TokenKind × List Char × Nat :=
  if peekFirst r = '>' then (.NEQ, r.tail, acc + 1)
  else if peekFirst r = '=' then (.LE, r.tail, acc + 1)
  else (.LT, r, acc)

/-- StringReader::greater_than from the source: an equals sign on peek_first is bumped
giving GE, otherwise GT. -/
def greater_than (r : List Char) (acc : Nat) : TokenKind × List Char × Nat :=
  if peekFirst r = '=' then (.GE, r.tail, acc + 1) else (.GT, r, acc)

/-- The kind selected at the end of cook_number from the decimal_found flag. -/
def numKind (decimal_found : Bool) : TokenKind := if decimal_found then .FLOAT else .INT

/-- StringReader::cook_number from the source: the scanning loop on the lookahead
character, with the decimal_found flag. A digit is consumed; a first dot is consumed and
sets the flag; a second dot breaks; whitespace breaks; anything else breaks. -/
def cook_number : List Char → Bool → Nat → TokenKind × List Char × Nat
  | c :: r, decimal_found, acc =>
    if isDigitChar c then cook_number r decimal_found (acc + c.utf8Size)
    else if c = '.' then
      if decimal_found then (numKind decimal_found, c :: r, acc)
      else cook_number r true (acc + 1)
    else if is_whitespace c then (numKind decimal_found, c :: r, acc)
    else (numKind decimal_found, c :: r, acc)
  | [], decimal_found, acc => (numKind decimal_found, [], acc)

/-- StringReader::cook_string from the source: the while-let loop bumping characters. A
quote ends the string with STRING; a backslash whose lookahead is a backslash or a quote
also bumps the escaped character; exhaustion of input gives UNKNOWN. -/
def cook_string : List Char → Nat → TokenKind × List Char × Nat
  | [], acc => (.UNKNOWN, [], acc)
  | c :: r, acc =>
    if c = '"' then (.STRING, r, acc + 1)
    else if c = '\\' then
      match r with
      | c2 :: r2 =>
        if c2 = '\\' ∨ c2 = '"' then cook_string r2 (acc + 1 + c2.utf8Size)
        else cook_string (c2 :: r2) (acc + 1)
      | [] => cook_string [] (acc + 1)
    else cook_string r (acc + c.utf8Size)

/-- The loop of StringReader::cook_comment from the source, on the pair of lookahead
characters: a star-slash pair is consumed and decrements the level, breaking at level
zero; a slash-star pair is consumed and increments the level; otherwise one character is
bumped, and exhausted input breaks. Both exits return COMMENT. -/
def cook_comment_loop : List Char → Int → Nat → TokenKind × List Char × Nat
  | '*' :: '/' :: r, lvl, acc =>
    if lvl - 1 = 0 then (.COMMENT, r, acc + 2)
    else cook_comment_loop r (lvl - 1) (acc + 2)
  | '/' :: '*' :: r, lvl, acc => cook_comment_loop r (lvl + 1) (acc + 2)
  | c :: r, lvl, acc => cook_comment_loop r lvl (acc + c.utf8Size)
  | [], _, acc => (.COMMENT, [], acc)

/-- StringReader::cook_comment from the source: the loop with comment_level starting
at 1. -/
def cook_comment (r : List Char) (acc : Nat) : TokenKind × List Char × Nat :=
  cook_comment_loop r 1 acc

/-- StringReader::slash from the source: a star on peek_first enters comment scanning
with the star still unconsumed, otherwise DIVIDE. -/
def slash (r : List Char) (acc : Nat) : TokenKind × List Char × Nat :=
  if peekFirst r = '*' then cook_comment r acc else (.DIVIDE, r, acc)

/-- The keyword table of cook_identifier from the source: the match of the sliced lexeme
(a string slice in the source, here the sliced characters repacked as a String) against
the reserved words, anything else being ID. -/
def keyword_kind (w : String) : TokenKind :=
  if w = "array" then .ARRAY
  else if w = "if" then .IF
  else if w = "then" then .THEN
  else if w = "else" then .ELSE
  else if w = "while" then .WHILE
  else if w = "for" then .FOR
  else if w = "to" then .TO
  else if w = "do" then .DO
  else if w = "let" then .LET
  else if w = "in" then .IN
  else if w = "end" then .END
  else if w = "of" then .OF
  else if w = "break" then .BREAK
  else if w = "function" then .FUNCTION
  else if w = "var" then .VAR
  else if w = "type" then .TYPE
  else if w = "nil" then .NIL
  else .ID

/-- The scanning loop of cook_identifier from the source: consume a maximal run of ASCII
letters and digits on the lookahead character. -/
def ident_loop : List Char → Nat → List Char × Nat
  | c :: r, acc => if isAlnumChar c then ident_loop r (acc + c.utf8Size) else (c :: r, acc)
  | [], acc => ([], acc)

/-- Rust byte slicing, first half: the prefix of exactly n bytes of a character list, or
none when n does not land on a character boundary or runs past the end (a panic). -/
def takeBytes : List Char → Nat → Option (List Char)
  | _, 0 => some []
  | [], Nat.succ _ => none
  | c :: r, Nat.succ n =>
    if c.utf8Size ≤ n + 1 then (takeBytes r (n + 1 - c.utf8Size)).map (fun w => c :: w)
    else none

/-- Rust byte slicing, second half: the tail after exactly n bytes of a character list,
or none when n does not land on a character boundary or runs past the end (a panic). -/
def dropBytes : List Char → Nat → Option (List Char)
  | l, 0 => some l
  | [], Nat.succ _ => none
  | c :: r, Nat.succ n =>
    if c.utf8Size ≤ n + 1 then dropBytes r (n + 1 - c.utf8Size) else none

/-- Rust string slicing src[lo..hi] at byte offsets: defined exactly when lo ≤ hi and
both offsets are character boundaries within the buffer; none models the panic. -/
def byteSlice (l : List Char) (lo hi : Nat) : Option (List Char) :=
  if lo ≤ hi then (dropBytes l lo).bind (fun t => takeBytes t (hi - lo)) else none

/-- StringReader::cook_identifier from the source: the alnum loop, then the slice of the
source from start to start plus the advanced count, matched against the keyword table.
The none kind models the Rust panic when the slice indices fail. -/
def cook_identifier (src : List Char) (start : Nat) (r : List Char) (acc : Nat) :
    Option TokenKind × List Char × Nat :=
  let p := ident_loop r acc
  match byteSlice src start (start + p.2) with
  | some w => (some (keyword_kind (String.mk w)), p.1, p.2)
  | none => (none, p.1, p.2)

/-- Lift a sub-scanner result into the dispatch result. -/
def someK (p : TokenKind × List Char × Nat) : Option TokenKind × List Char × Nat :=
  (some p.1, p.2.1, p.2.2)

/-- The dispatch of StringReader::next_token from the source on the first consumed
character ch: the match over whitespace, the single-character punctuation and operator
table (note the open curly brace mapping to RCURLY and the close curly brace to LCURLY,
exactly as in the source), the two-character operator helpers, and the literal
sub-scanners; anything else is UNKNOWN. -/
def dispatch (src : List Char) (start : Nat) (ch : Char) (r : List Char) (acc : Nat) :
    Option TokenKind × List Char × Nat :=
  if is_whitespace ch then someK (whitespace r acc)
  else if ch = ',' then (some .COMMA, r, acc)
  else if ch = ';' then (some .SEMICOLON, r, acc)
  else if ch = '(' then (some .LPAREN, r, acc)
  else if ch = ')' then (some .RPAREN, r, acc)
  else if ch = '[' then (some .LBRACK, r, acc)
  else if ch = ']' then (some .RBRACK, r, acc)
  else if ch = '\x7b' then (some .RCURLY, r, acc)
  else if ch = '\x7d' then (some .LCURLY, r, acc)
  else if ch = '.' then (some .DOT, r, acc)
  else if ch = ':' then someK (colon r acc)
  else if ch = '+' then (some .PLUS, r, acc)
  else if ch = '-' then (some .MINUS, r, acc)
  else if ch = '*' then (some .TIMES, r, acc)
  else if ch = '%' then (some .PERCENT, r, acc)
  else if ch = '=' then (some .EQ, r, acc)
  else if ch = '<' then someK (less_than r acc)
  else if ch = '>' then someK (greater_than r acc)
  else if ch = '&' then (some .AND, r, acc)
  else if ch = '|' then (some .OR, r, acc)
  else if isDigitChar ch then someK (cook_number r false acc)
  else if ch = '"' then someK (cook_string r acc)
  else if ch = '/' then someK (slash r acc)
  else if isLetterChar ch then cook_identifier src start r acc
  else (some .UNKNOWN, r, acc)

/-- One iteration of the loop inside StringReader::next_token: exhausted input returns
the EOF token with an empty span at the current position and an untouched state;
otherwise the first character is bumped, the dispatch computes the kind and advances the
cursor, the token length is read off the cursor counter, the counter is reset, the
absolute position advances by the length, and the token carries the span from start to
the new position. The internal WHITESPACE marker is surfaced here as a pseudo token so
that the skipped run and its consumed positions are visible; next_token below restarts
the loop on it. The none result models a Rust panic inside cook_identifier. -/
def next_token_inner (s : StringReader) : Option (Token × StringReader) :=
  match s.cursor.rest with
  | [] => some (⟨.EOF, ⟨s.pos, s.pos⟩⟩, s)
  | ch :: r =>
    match dispatch s.src s.pos ch r (s.cursor.lenAdvanced + ch.utf8Size) with
    | (none, _, _) => none
    | (some kind, rest1, acc1) =>
      some (⟨kind, ⟨s.pos, s.pos + acc1⟩⟩, ⟨s.src, ⟨rest1, 0⟩, s.pos + acc1⟩)

/-- The loop of StringReader::next_token: repeat the iteration while it produces the
internal WHITESPACE marker. The fuel argument bounds the number of iterations; one more
than the remaining character count always suffices, since every WHITESPACE iteration
consumes at least one character. -/
def next_token_loop : Nat → StringReader → Option (Token × StringReader)
  | 0, _ => none
  | Nat.succ fuel, s =>
    match next_token_inner s with
    | none => none
    | some (t, s') => if t.kind = .WHITESPACE then next_token_loop fuel s' else some (t, s')

/-- StringReader::next_token from the source, with sufficient fuel for its loop. -/
def next_token (s : StringReader) : Option (Token × StringReader) :=
  next_token_loop (s.cursor.rest.length + 1) s

/-- Repeated next_token calls collecting every returned token up to and including the
first EOF. The fuel bounds the number of calls; one more than the remaining character
count always suffices, since every token before EOF consumes at least one character. -/
def tokens_loop : Nat → StringReader → Option (List Token)
  | 0, _ => none
  | Nat.succ fuel, s =>
    match next_token s with
    | none => none
    | some (t, s') =>
      if t.kind = .EOF then some [t]
      else
        match tokens_loop fuel s' with
        | some ts => some (t :: ts)
        | none => none

/-- The full visible token stream of a source string, up to and including EOF. -/
def lexAll (src : List Char) : Option (List Token) :=
  tokens_loop (src.length + 1) (new_reader src)

/-- The stream of loop iterations of next_token up to and including EOF, with the
internal WHITESPACE markers surfaced: every consumed position of the source appears in
exactly one of these spans. -/
def raw_tokens_loop : Nat → StringReader → Option (List Token)
  | 0, _ => none
  | Nat.succ fuel, s =>
    match next_token_inner s with
    | none => none
    | some (t, s') =>
      if t.kind = .EOF then some [t]
      else
        match raw_tokens_loop fuel s' with
        | some ts => some (t :: ts)
        | none => none

/-- The raw iteration stream of a source string. -/
def raw_tokens (src : List Char) : Option (List Token) :=
  raw_tokens_loop (src.length + 1) (new_reader src)

/-- The spans of a token list tile the positions starting at p with no gaps and no
overlaps: each token starts exactly at the running position, its span is non-empty or
empty but ordered, and the next token continues at its upper end. -/
def spans_chain : Nat → List Token → Prop
  | _, [] => True
  | p, t :: ts => t.pos.lo = p ∧ t.pos.lo ≤ t.pos.hi ∧ spans_chain t.pos.hi ts

/-- The well-formedness invariant of a reader state: the cursor counter is reset and the
cursor tail is the suffix of the source at the byte offset given by the absolute
position. It holds for a fresh reader and is preserved by next_token. -/
def WF (s : StringReader) : Prop :=
  s.cursor.lenAdvanced = 0 ∧ ∃ pre, s.src = pre ++ s.cursor.rest ∧ s.pos = utf8Len pre

theorem utf8Len_append (a b : List Char) : utf8Len (a ++ b) = utf8Len a + utf8Len b := by
  induction a with
  | nil => simp [utf8Len]
  | cons c r ih => simp [utf8Len, ih]; omega

@[simp] theorem utf8Size_eq_quote : ( '"' ).utf8Size = 1 := rfl

@[simp] theorem utf8Size_eq_backslash : ( '\\' ).utf8Size = 1 := rfl

@[simp] theorem utf8Size_eq_star : ( '*' ).utf8Size = 1 := rfl

@[simp] theorem utf8Size_eq_slash : ( '/' ).utf8Size = 1 := rfl

@[simp] theorem utf8Size_eq_dot : ( '.' ).utf8Size = 1 := rfl

@[simp] theorem utf8Size_eq_eq : ( '=' ).utf8Size = 1 := rfl

@[simp] theorem utf8Size_eq_gt : ( '>' ).utf8Size = 1 := rfl

theorem takeBytes_cons (c : Char) (r : List Char) (n : Nat) (h : 0 < n) :
    takeBytes (c :: r) n =
      if c.utf8Size ≤ n then (takeBytes r (n - c.utf8Size)).map (fun w => c :: w)
      else none := by
  cases n with
  | zero => omega
  | succ m => simp [takeBytes]

theorem dropBytes_cons (c : Char) (r : List Char) (n : Nat) (h : 0 < n) :
    dropBytes (c :: r) n = if c.utf8Size ≤ n then dropBytes r (n - c.utf8Size) else none := by
  cases n with
  | zero => omega
  | succ m => simp [dropBytes]

theorem takeBytes_exact (a b : List Char) : takeBytes (a ++ b) (utf8Len a) = some a := by
  induction a with
  | nil => simp [takeBytes, utf8Len]
  | cons c r ih =>
    have hpos := c.utf8Size_pos
    have hlen : 0 < utf8Len (c :: r) := by simp [utf8Len]; omega
    rw [List.cons_append, takeBytes_cons _ _ _ hlen]
    have hle : c.utf8Size ≤ utf8Len (c :: r) := by simp [utf8Len]
    rw [if_pos hle]
    have hsub : utf8Len (c :: r) - c.utf8Size = utf8Len r := by simp [utf8Len]
    rw [hsub, ih]
    rfl

theorem dropBytes_exact (a b : List Char) : dropBytes (a ++ b) (utf8Len a) = some b := by
  induction a with
  | nil => simp [dropBytes, utf8Len]
  | cons c r ih =>
    have hpos := c.utf8Size_pos
    have hlen : 0 < utf8Len (c :: r) := by simp [utf8Len]; omega
    rw [List.cons_append, dropBytes_cons _ _ _ hlen]
    have hle : c.utf8Size ≤ utf8Len (c :: r) := by simp [utf8Len]
    rw [if_pos hle]
    have hsub : utf8Len (c :: r) - c.utf8Size = utf8Len r := by simp [utf8Len]
    rw [hsub, ih]

theorem byteSlice_exact (p m t : List Char) :
    byteSlice (p ++ (m ++ t)) (utf8Len p) (utf8Len p + utf8Len m) = some m := by
  unfold byteSlice
  rw [if_pos (Nat.le_add_right _ _), dropBytes_exact]
  have hsub : utf8Len p + utf8Len m - utf8Len p = utf8Len m := by omega
  simp [hsub, takeBytes_exact]

theorem bump_while_spec (p : Char → Bool) (r : List Char) (acc : Nat) :
    ∃ mid r1, bump_while p r acc = (r1, acc + utf8Len mid) ∧ r = mid ++ r1 := by
  induction r generalizing acc with
  | nil => exact ⟨[], [], by simp [bump_while, utf8Len], rfl⟩
  | cons c r ih =>
    by_cases h : p c
    · obtain ⟨mid, r1, h1, h2⟩ := ih (acc + c.utf8Size)
      refine ⟨c :: mid, r1, ?_, by simp [h2]⟩
      rw [bump_while, if_pos h, h1]
      simp [utf8Len]
      omega
    · exact ⟨[], c :: r, by simp [bump_while, h, utf8Len], rfl⟩

theorem whitespace_spec (r : List Char) (acc : Nat) :
    ∃ mid r1, whitespace r acc = (.WHITESPACE, r1, acc + utf8Len mid) ∧ r = mid ++ r1 := by
  obtain ⟨mid, r1, h1, h2⟩ := bump_while_spec is_whitespace r acc
  exact ⟨mid, r1, by simp [whitespace, h1], h2⟩

theorem peekFirst_eq_of_cons (c : Char) (r : List Char) : peekFirst (c :: r) = c := rfl

theorem exists_head_of_peek (r : List Char) (c : Char) (hc : c ≠ EOF_CHAR)
    (h : peekFirst r = c) : ∃ r2, r = c :: r2 := by
  cases r with
  | nil => exact absurd (h.symm.trans (show peekFirst [] = EOF_CHAR from rfl)) hc
  | cons c0 r2 => exact ⟨r2, by rw [← h]; rfl⟩

theorem colon_spec (r : List Char) (acc : Nat) :
    ∃ k mid r1, colon r acc = (k, r1, acc + utf8Len mid) ∧ r = mid ++ r1 ∧
      (k = .ASSIGN ∨ k = .COLON) := by
  by_cases h : peekFirst r = '='
  · obtain ⟨r2, rfl⟩ := exists_head_of_peek r '=' (by decide) h
    exact ⟨.ASSIGN, [ '=' ], r2, by simp [colon, h, utf8Len], by simp, Or.inl rfl⟩
  · exact ⟨.COLON, [], r, by simp [colon, h, utf8Len], by simp, Or.inr rfl⟩

theorem less_than_spec (r : List Char) (acc : Nat) :
    ∃ k mid r1, less_than r acc = (k, r1, acc + utf8Len mid) ∧ r = mid ++ r1 ∧
      (k = .NEQ ∨ k = .LE ∨ k = .LT) := by
  by_cases h : peekFirst r = '>'
  · obtain ⟨r2, rfl⟩ := exists_head_of_peek r '>' (by decide) h
    exact ⟨.NEQ, [ '>' ], r2, by simp [less_than, h, utf8Len], by simp, Or.inl rfl⟩
  · by_cases h2 : peekFirst r = '='
    · obtain ⟨r2, rfl⟩ := exists_head_of_peek r '=' (by decide) h2
      exact ⟨.LE, [ '=' ], r2, by simp [less_than, h, h2, utf8Len], by simp,
        Or.inr (Or.inl rfl)⟩
    · exact ⟨.LT, [], r, by simp [less_than, h, h2, utf8Len], by simp, Or.inr (Or.inr rfl)⟩

theorem greater_than_spec (r : List Char) (acc : Nat) :
    ∃ k mid r1, greater_than r acc = (k, r1, acc + utf8Len mid) ∧ r = mid ++ r1 ∧
      (k = .GE ∨ k = .GT) := by
  by_cases h : peekFirst r = '='
  · obtain ⟨r2, rfl⟩ := exists_head_of_peek r '=' (by decide) h
    exact ⟨.GE, [ '=' ], r2, by simp [greater_than, h, utf8Len], by simp, Or.inl rfl⟩
  · exact ⟨.GT, [], r, by simp [greater_than, h, utf8Len], by simp, Or.inr rfl⟩

theorem cook_number_spec (r : List Char) (df : Bool) (acc : Nat) :
    ∃ k mid r1, cook_number r df acc = (k, r1, acc + utf8Len mid) ∧ r = mid ++ r1 ∧
      (k = .INT ∨ k = .FLOAT) := by
  induction r generalizing df acc with
  | nil =>
    refine ⟨numKind df, [], [], by simp [cook_number, utf8Len], by simp, ?_⟩
    cases df <;> simp [numKind]
  | cons c r ih =>
    by_cases h1 : isDigitChar c
    · obtain ⟨k, mid, r1, e1, e2, e3⟩ := ih df (acc + c.utf8Size)
      refine ⟨k, c :: mid, r1, ?_, by simp [e2], e3⟩
      rw [cook_number, if_pos h1, e1]
      simp [utf8Len]
      omega
    · by_cases h2 : c = '.'
      · subst h2
        cases df with
        | true =>
          refine ⟨numKind true, [], '.' :: r, ?_, by simp, Or.inr rfl⟩
          rw [cook_number]
          simp [h1, utf8Len]
        | false =>
          obtain ⟨k, mid, r1, e1, e2, e3⟩ := ih true (acc + 1)
          refine ⟨k, '.' :: mid, r1, ?_, by simp [e2], e3⟩
          rw [cook_number]
          simp only [h1, if_false, if_pos rfl, Bool.false_eq_true, reduceIte]
          rw [e1]
          simp [utf8Len]
          omega
      · refine ⟨numKind df, [], c :: r, ?_, by simp, by cases df <;> simp [numKind]⟩
        rw [cook_number]
        by_cases h3 : is_whitespace c <;> simp [h1, h2, h3, utf8Len]

theorem cook_string_nil (acc : Nat) : cook_string [] acc = (.UNKNOWN, [], acc) := rfl

theorem cook_string_quote (c : Char) (r : List Char) (acc : Nat) (h : c = '"') :
    cook_string (c :: r) acc = (.STRING, r, acc + 1) := by
  subst h
  rw [cook_string.eq_def]
  simp

theorem cook_string_esc (c2 : Char) (r : List Char) (acc : Nat) (h : c2 = '\\' ∨ c2 = '"') :
    cook_string ( '\\' :: c2 :: r) acc = cook_string r (acc + 1 + c2.utf8Size) := by
  rcases h with h | h <;> subst h <;> rfl

theorem cook_string_noesc (c2 : Char) (r : List Char) (acc : Nat)
    (h : ¬(c2 = '\\' ∨ c2 = '"')) :
    cook_string ( '\\' :: c2 :: r) acc = cook_string (c2 :: r) (acc + 1) := by
  rw [cook_string.eq_def]
  simp +decide [h]

theorem cook_string_bs_nil (acc : Nat) : cook_string [ '\\' ] acc = (.UNKNOWN, [], acc + 1) :=
  rfl

theorem cook_string_other (c : Char) (r : List Char) (acc : Nat) (h1 : ¬ c = '"')
    (h2 : ¬ c = '\\') : cook_string (c :: r) acc = cook_string r (acc + c.utf8Size) := by
  rw [cook_string.eq_def]
  simp [h1, h2]

theorem cook_string_spec_aux (n : Nat) :
    ∀ r : List Char, r.length ≤ n → ∀ acc : Nat,
      ∃ k mid r1, cook_string r acc = (k, r1, acc + utf8Len mid) ∧ r = mid ++ r1 ∧
        (k = .STRING ∨ (k = .UNKNOWN ∧ r1 = [])) := by
  induction n with
  | zero =>
    intro r hr acc
    have hnil : r = [] := List.length_eq_zero.mp (Nat.le_zero.mp hr)
    subst hnil
    exact ⟨.UNKNOWN, [], [], by simp [cook_string_nil, utf8Len], by simp, Or.inr ⟨rfl, rfl⟩⟩
  | succ n ih =>
    intro r hr acc
    match r with
    | [] => exact ⟨.UNKNOWN, [], [], by simp [cook_string_nil, utf8Len], by simp, Or.inr ⟨rfl, rfl⟩⟩
    | c :: r' =>
      by_cases h1 : c = '"'
      · refine ⟨.STRING, [c], r', ?_, by simp, Or.inl rfl⟩
        rw [cook_string_quote c r' acc h1, h1]
        simp [utf8Len]
      · by_cases h2 : c = '\\'
        · subst h2
          match r' with
          | [] =>
            refine ⟨.UNKNOWN, [ '\\' ], [], ?_, by simp, Or.inr ⟨rfl, rfl⟩⟩
            rw [cook_string_bs_nil]
            simp [utf8Len]
          | c2 :: r2 =>
            by_cases h3 : c2 = '\\' ∨ c2 = '"'
            · have hr2 : r2.length ≤ n := by
                simp only [List.length_cons] at hr
                omega
              obtain ⟨k, mid, r1, e1, e2, e3⟩ := ih r2 hr2 (acc + 1 + c2.utf8Size)
              refine ⟨k, '\\' :: c2 :: mid, r1, ?_, by simp [e2], e3⟩
              rw [cook_string_esc c2 r2 acc h3, e1]
              simp [utf8Len]
              omega
            · have hr2 : (c2 :: r2).length ≤ n := by
                simp only [List.length_cons] at hr ⊢
                omega
              obtain ⟨k, mid, r1, e1, e2, e3⟩ := ih (c2 :: r2) hr2 (acc + 1)
              refine ⟨k, '\\' :: mid, r1, ?_, by simp [e2], e3⟩
              rw [cook_string_noesc c2 r2 acc h3, e1]
              simp [utf8Len]
              omega
        · have hr' : r'.length ≤ n := by
            simp only [List.length_cons] at hr
            omega
          obtain ⟨k, mid, r1, e1, e2, e3⟩ := ih r' hr' (acc + c.utf8Size)
          refine ⟨k, c :: mid, r1, ?_, by simp [e2], e3⟩
          rw [cook_string_other c r' acc h1 h2, e1]
          simp [utf8Len]
          omega

theorem cook_string_spec (r : List Char) (acc : Nat) :
    ∃ k mid r1, cook_string r acc = (k, r1, acc + utf8Len mid) ∧ r = mid ++ r1 ∧
      (k = .STRING ∨ (k = .UNKNOWN ∧ r1 = [])) :=
  cook_string_spec_aux r.length r (Nat.le_refl _) acc

theorem ccl_nil (lvl : Int) (acc : Nat) : cook_comment_loop [] lvl acc = (.COMMENT, [], acc) :=
  rfl

theorem ccl_close (r : List Char) (lvl : Int) (acc : Nat) :
    cook_comment_loop ( '*' :: '/' :: r) lvl acc =
      if lvl - 1 = 0 then (.COMMENT, r, acc + 2)
      else cook_comment_loop r (lvl - 1) (acc + 2) := by
  rw [cook_comment_loop.eq_def]
  simp +decide

theorem ccl_open (r : List Char) (lvl : Int) (acc : Nat) :
    cook_comment_loop ( '/' :: '*' :: r) lvl acc = cook_comment_loop r (lvl + 1) (acc + 2) := by
  rw [cook_comment_loop.eq_def]
  simp +decide

theorem ccl_step (c1 c2 : Char) (r : List Char) (lvl : Int) (acc : Nat)
    (h1 : ¬(c1 = '*' ∧ c2 = '/')) (h2 : ¬(c1 = '/' ∧ c2 = '*')) :
    cook_comment_loop (c1 :: c2 :: r) lvl acc =
      cook_comment_loop (c2 :: r) lvl (acc + c1.utf8Size) := by
  rw [cook_comment_loop.eq_def]
  split
  · rename_i r3 heq
    injection heq with e1 rest
    injection rest with e2 e3
    exact absurd ⟨e1, e2⟩ h1
  · rename_i r3 heq
    injection heq with e1 rest
    injection rest with e2 e3
    exact absurd ⟨e1, e2⟩ h2
  · rename_i c0 r3 heq
    injection heq with e1 rest
    subst e1
    subst rest
    rfl
  · rename_i heq
    exact absurd heq (by simp)

theorem ccl_single (c : Char) (lvl : Int) (acc : Nat) :
    cook_comment_loop [c] lvl acc = (.COMMENT, [], acc + c.utf8Size) := by
  rw [cook_comment_loop.eq_def]
  split
  · rename_i r3 heq
    injection heq with e1 rest
    exact absurd rest (by simp)
  · rename_i r3 heq
    injection heq with e1 rest
    exact absurd rest (by simp)
  · rename_i c0 r3 heq
    injection heq with e1 rest
    subst e1
    subst rest
    rw [ccl_nil]
  · rename_i heq
    exact absurd heq (by simp)

theorem cook_comment_loop_spec_aux (n : Nat) :
    ∀ r : List Char, r.length ≤ n → ∀ (lvl : Int) (acc : Nat),
      ∃ mid r1, cook_comment_loop r lvl acc = (.COMMENT, r1, acc + utf8Len mid) ∧
        r = mid ++ r1 := by
  induction n with
  | zero =>
    intro r hr lvl acc
    have hnil : r = [] := List.length_eq_zero.mp (Nat.le_zero.mp hr)
    subst hnil
    exact ⟨[], [], by simp [ccl_nil, utf8Len], by simp⟩
  | succ n ih =>
    intro r hr lvl acc
    match r with
    | [] => exact ⟨[], [], by simp [ccl_nil, utf8Len], by simp⟩
    | [c] =>
      refine ⟨[c], [], ?_, by simp⟩
      rw [ccl_single]
      simp [utf8Len]
    | c1 :: c2 :: rs =>
      have hrs : rs.length ≤ n := by
        simp only [List.length_cons] at hr
        omega
      have hrs2 : (c2 :: rs).length ≤ n := by
        simp only [List.length_cons] at hr ⊢
        omega
      by_cases p1 : c1 = '*' ∧ c2 = '/'
      · obtain ⟨e1, e2⟩ := p1
        subst e1
        subst e2
        rw [ccl_close]
        by_cases hl : lvl - 1 = 0
        · refine ⟨[ '*', '/' ], rs, ?_, by simp⟩
          rw [if_pos hl]
          simp [utf8Len]
        · rw [if_neg hl]
          obtain ⟨mid, r1, e1, e2⟩ := ih rs hrs (lvl - 1) (acc + 2)
          refine ⟨ '*' :: '/' :: mid, r1, ?_, by simp [e2]⟩
          rw [e1]
          simp [utf8Len]
          omega
      · by_cases p2 : c1 = '/' ∧ c2 = '*'
        · obtain ⟨e1, e2⟩ := p2
          subst e1
          subst e2
          rw [ccl_open]
          obtain ⟨mid, r1, e1, e2⟩ := ih rs hrs (lvl + 1) (acc + 2)
          refine ⟨ '/' :: '*' :: mid, r1, ?_, by simp [e2]⟩
          rw [e1]
          simp [utf8Len]
          omega
        · rw [ccl_step c1 c2 rs lvl acc p1 p2]
          obtain ⟨mid, r1, e1, e2⟩ := ih (c2 :: rs) hrs2 lvl (acc + c1.utf8Size)
          refine ⟨c1 :: mid, r1, ?_, by simp [e2]⟩
          rw [e1]
          simp [utf8Len]
          omega

theorem cook_comment_spec (r : List Char) (acc : Nat) :
    ∃ mid r1, cook_comment r acc = (.COMMENT, r1, acc + utf8Len mid) ∧ r = mid ++ r1 := by
  unfold cook_comment
  exact cook_comment_loop_spec_aux r.length r (Nat.le_refl _) 1 acc

theorem slash_spec (r : List Char) (acc : Nat) :
    ∃ k mid r1, slash r acc = (k, r1, acc + utf8Len mid) ∧ r = mid ++ r1 ∧
      (k = .COMMENT ∨ k = .DIVIDE) := by
  unfold slash
  by_cases h : peekFirst r = '*'
  · rw [if_pos h]
    obtain ⟨mid, r1, e1, e2⟩ := cook_comment_spec r acc
    exact ⟨.COMMENT, mid, r1, e1, e2, Or.inl rfl⟩
  · rw [if_neg h]
    exact ⟨.DIVIDE, [], r, by simp [utf8Len], by simp, Or.inr rfl⟩

theorem ident_loop_spec (r : List Char) (acc : Nat) :
    ∃ mid r1, ident_loop r acc = (r1, acc + utf8Len mid) ∧ r = mid ++ r1 := by
  induction r generalizing acc with
  | nil => exact ⟨[], [], by simp [ident_loop, utf8Len], rfl⟩
  | cons c r ih =>
    by_cases h : isAlnumChar c
    · obtain ⟨mid, r1, h1, h2⟩ := ih (acc + c.utf8Size)
      refine ⟨c :: mid, r1, ?_, by simp [h2]⟩
      rw [ident_loop, if_pos h, h1]
      simp [utf8Len]
      omega
    · exact ⟨[], c :: r, by simp [ident_loop, h, utf8Len], rfl⟩

/-- The reserved word list of the keyword table. -/
def keyword_list : List String :=
  ["array", "if", "then", "else", "while", "for", "to", "do", "let", "in", "end",
   "of", "break", "function", "var", "type", "nil"]

theorem ite_ne {p : Prop} [Decidable p] {a b c : TokenKind} (h1 : a ≠ c) (h2 : b ≠ c) :
    (if p then a else b) ≠ c := by
  split <;> assumption

theorem keyword_kind_ne_eof (w : String) : keyword_kind w ≠ .EOF := by
  unfold keyword_kind
  repeat apply ite_ne (by decide)
  decide

theorem keyword_kind_not_mem (w : String) (h : ¬ w ∈ keyword_list) :
    keyword_kind w = .ID := by
  unfold keyword_kind
  repeat rw [if_neg (fun e => h (by rw [e]; decide))]

theorem cook_identifier_spec (pre : List Char) (ch : Char) (r : List Char) :
    ∃ k mid r1,
      cook_identifier (pre ++ ch :: r) (utf8Len pre) r ch.utf8Size
        = (some k, r1, ch.utf8Size + utf8Len mid) ∧ r = mid ++ r1 ∧ k ≠ .EOF := by
  obtain ⟨mid, r1, e1, e2⟩ := ident_loop_spec r ch.utf8Size
  refine ⟨keyword_kind (String.mk (ch :: mid)), mid, r1, ?_, e2, keyword_kind_ne_eof _⟩
  unfold cook_identifier
  simp only [e1]
  rw [show pre ++ ch :: r = pre ++ ((ch :: mid) ++ r1) by simp [e2]]
  rw [show utf8Len pre + (ch.utf8Size + utf8Len mid) = utf8Len pre + utf8Len (ch :: mid) by
    simp [utf8Len]]
  rw [byteSlice_exact]

theorem dispatch_spec (pre : List Char) (ch : Char) (r : List Char) :
    ∃ k mid r1,
      dispatch (pre ++ ch :: r) (utf8Len pre) ch r ch.utf8Size
        = (some k, r1, ch.utf8Size + utf8Len mid) ∧ r = mid ++ r1 ∧ k ≠ .EOF := by
  unfold dispatch
  by_cases c1 : is_whitespace ch = true
  · rw [if_pos c1]
    obtain ⟨mid, r1, e1, e2⟩ := whitespace_spec r ch.utf8Size
    exact ⟨.WHITESPACE, mid, r1, by simp [someK, e1], e2, by decide⟩
  rw [if_neg c1]
  by_cases c2 : ch = ','
  · rw [if_pos c2]
    exact ⟨.COMMA, [], r, by simp [utf8Len], by simp, by decide⟩
  rw [if_neg c2]
  by_cases c3 : ch = ';'
  · rw [if_pos c3]
    exact ⟨.SEMICOLON, [], r, by simp [utf8Len], by simp, by decide⟩
  rw [if_neg c3]
  by_cases c4 : ch = '('
  · rw [if_pos c4]
    exact ⟨.LPAREN, [], r, by simp [utf8Len], by simp, by decide⟩
  rw [if_neg c4]
  by_cases c5 : ch = ')'
  · rw [if_pos c5]
    exact ⟨.RPAREN, [], r, by simp [utf8Len], by simp, by decide⟩
  rw [if_neg c5]
  by_cases c6 : ch = '['
  · rw [if_pos c6]
    exact ⟨.LBRACK, [], r, by simp [utf8Len], by simp, by decide⟩
  rw [if_neg c6]
  by_cases c7 : ch = ']'
  · rw [if_pos c7]
    exact ⟨.RBRACK, [], r, by simp [utf8Len], by simp, by decide⟩
  rw [if_neg c7]
  by_cases c8 : ch = '\x7b'
  · rw [if_pos c8]
    exact ⟨.RCURLY, [], r, by simp [utf8Len], by simp, by decide⟩
  rw [if_neg c8]
  by_cases c9 : ch = '\x7d'
  · rw [if_pos c9]
    exact ⟨.LCURLY, [], r, by simp [utf8Len], by simp, by decide⟩
  rw [if_neg c9]
  by_cases c10 : ch = '.'
  · rw [if_pos c10]
    exact ⟨.DOT, [], r, by simp [utf8Len], by simp, by decide⟩
  rw [if_neg c10]
  by_cases c11 : ch = ':'
  · rw [if_pos c11]
    obtain ⟨k, mid, r1, e1, e2, e3⟩ := colon_spec r ch.utf8Size
    refine ⟨k, mid, r1, by simp [someK, e1], e2, ?_⟩
    rcases e3 with rfl | rfl <;> decide
  rw [if_neg c11]
  by_cases c12 : ch = '+'
  · rw [if_pos c12]
    exact ⟨.PLUS, [], r, by simp [utf8Len], by simp, by decide⟩
  rw [if_neg c12]
  by_cases c13 : ch = '-'
  · rw [if_pos c13]
    exact ⟨.MINUS, [], r, by simp [utf8Len], by simp, by decide⟩
  rw [if_neg c13]
  by_cases c14 : ch = '*'
  · rw [if_pos c14]
    exact ⟨.TIMES, [], r, by simp [utf8Len], by simp, by decide⟩
  rw [if_neg c14]
  by_cases c15 : ch = '%'
  · rw [if_pos c15]
    exact ⟨.PERCENT, [], r, by simp [utf8Len], by simp, by decide⟩
  rw [if_neg c15]
  by_cases c16 : ch = '='
  · rw [if_pos c16]
    exact ⟨.EQ, [], r, by simp [utf8Len], by simp, by decide⟩
  rw [if_neg c16]
  by_cases c17 : ch = '<'
  · rw [if_pos c17]
    obtain ⟨k, mid, r1, e1, e2, e3⟩ := less_than_spec r ch.utf8Size
    refine ⟨k, mid, r1, by simp [someK, e1], e2, ?_⟩
    rcases e3 with rfl | rfl | rfl <;> decide
  rw [if_neg c17]
  by_cases c18 : ch = '>'
  · rw [if_pos c18]
    obtain ⟨k, mid, r1, e1, e2, e3⟩ := greater_than_spec r ch.utf8Size
    refine ⟨k, mid, r1, by simp [someK, e1], e2, ?_⟩
    rcases e3 with rfl | rfl <;> decide
  rw [if_neg c18]
  by_cases c19 : ch = '&'
  · rw [if_pos c19]
    exact ⟨.AND, [], r, by simp [utf8Len], by simp, by decide⟩
  rw [if_neg c19]
  by_cases c20 : ch = '|'
  · rw [if_pos c20]
    exact ⟨.OR, [], r, by simp [utf8Len], by simp, by decide⟩
  rw [if_neg c20]
  by_cases c21 : isDigitChar ch = true
  · rw [if_pos c21]
    obtain ⟨k, mid, r1, e1, e2, e3⟩ := cook_number_spec r false ch.utf8Size
    refine ⟨k, mid, r1, by simp [someK, e1], e2, ?_⟩
    rcases e3 with rfl | rfl <;> decide
  rw [if_neg c21]
  by_cases c22 : ch = '"'
  · rw [if_pos c22]
    obtain ⟨k, mid, r1, e1, e2, e3⟩ := cook_string_spec r ch.utf8Size
    refine ⟨k, mid, r1, by simp [someK, e1], e2, ?_⟩
    rcases e3 with rfl | ⟨rfl, e4⟩ <;> decide
  rw [if_neg c22]
  by_cases c23 : ch = '/'
  · rw [if_pos c23]
    obtain ⟨k, mid, r1, e1, e2, e3⟩ := slash_spec r ch.utf8Size
    refine ⟨k, mid, r1, by simp [someK, e1], e2, ?_⟩
    rcases e3 with rfl | rfl <;> decide
  rw [if_neg c23]
  by_cases c24 : isLetterChar ch = true
  · rw [if_pos c24]
    exact cook_identifier_spec pre ch r
  rw [if_neg c24]
  exact ⟨.UNKNOWN, [], r, by simp [utf8Len], by simp, by decide⟩

theorem wf_new (src : List Char) : WF (new_reader src) :=
  ⟨rfl, [], rfl, rfl⟩

theorem next_token_inner_nil (s : StringReader) (hrest : s.cursor.rest = []) :
    next_token_inner s = some (⟨.EOF, ⟨s.pos, s.pos⟩⟩, s) := by
  unfold next_token_inner
  rw [hrest]

theorem next_token_inner_cons (s : StringReader) (ch : Char) (r : List Char)
    (hrest : s.cursor.rest = ch :: r) :
    next_token_inner s =
      match dispatch s.src s.pos ch r (s.cursor.lenAdvanced + ch.utf8Size) with
      | (none, _, _) => none
      | (some kind, rest1, acc1) =>
        some (⟨kind, ⟨s.pos, s.pos + acc1⟩⟩, ⟨s.src, ⟨rest1, 0⟩, s.pos + acc1⟩) := by
  unfold next_token_inner
  rw [hrest]

theorem next_token_inner_spec (s : StringReader) (h : WF s) :
    ∃ t s', next_token_inner s = some (t, s') ∧ WF s' ∧ s'.src = s.src ∧
      t.pos = ⟨s.pos, s'.pos⟩ ∧ s.pos ≤ s'.pos ∧
      (t.kind = .EOF → s' = s ∧ s.cursor.rest = []) ∧
      (t.kind ≠ .EOF → s'.cursor.rest.length < s.cursor.rest.length) := by
  obtain ⟨hadv, pre, hsrc, hpos⟩ := h
  match hrest : s.cursor.rest with
  | [] =>
    refine ⟨⟨.EOF, ⟨s.pos, s.pos⟩⟩, s, next_token_inner_nil s hrest,
      ⟨hadv, pre, hsrc, hpos⟩, rfl, rfl, Nat.le_refl _, fun _ => ⟨rfl, rfl⟩,
      fun hne => absurd rfl hne⟩
  | ch :: r =>
    have hsrc' : s.src = pre ++ ch :: r := by rw [hsrc, hrest]
    obtain ⟨k, mid, r1, e1, e2, e3⟩ := dispatch_spec pre ch r
    have heq : next_token_inner s =
        some (⟨k, ⟨s.pos, s.pos + (ch.utf8Size + utf8Len mid)⟩⟩,
          ⟨s.src, ⟨r1, 0⟩, s.pos + (ch.utf8Size + utf8Len mid)⟩) := by
      rw [next_token_inner_cons s ch r hrest, hadv, Nat.zero_add, hsrc', hpos, e1]
    have hlen : (mid ++ r1).length = mid.length + r1.length := List.length_append mid r1
    refine ⟨_, _, heq, ?_, rfl, rfl, Nat.le_add_right _ _, ?_, ?_⟩
    · refine ⟨rfl, pre ++ ch :: mid, ?_, ?_⟩
      · rw [hsrc', e2]
        simp
      · rw [hpos, utf8Len_append]
        simp [utf8Len]
    · intro hk
      exact absurd hk e3
    · intro _
      show r1.length < (ch :: r).length
      simp only [List.length_cons]
      have := congrArg List.length e2
      rw [hlen] at this
      omega

theorem next_token_loop_congr (f1 : Nat) : ∀ (f2 : Nat) (s : StringReader), WF s →
    s.cursor.rest.length < f1 → s.cursor.rest.length < f2 →
    next_token_loop f1 s = next_token_loop f2 s := by
  induction f1 using Nat.strong_induction_on with
  | _ f1 IH =>
    intro f2 s hwf h1 h2
    match f1, f2 with
    | n1 + 1, n2 + 1 =>
      obtain ⟨t, s', heq, hwf', hsrc, hp, hle, heof, hprog⟩ := next_token_inner_spec s hwf
      simp only [next_token_loop, heq]
      by_cases hW : t.kind = .WHITESPACE
      · rw [if_pos hW, if_pos hW]
        have hne : t.kind ≠ .EOF := by
          rw [hW]
          decide
        have hlt := hprog hne
        exact IH n1 (Nat.lt_succ_self _) n2 s' hwf' (by omega) (by omega)
      · rw [if_neg hW, if_neg hW]

theorem next_token_loop_spec (fuel : Nat) : ∀ s : StringReader, WF s →
    s.cursor.rest.length < fuel →
    ∃ t s', next_token_loop fuel s = some (t, s') ∧ WF s' ∧ s'.src = s.src ∧
      ¬ t.kind = .WHITESPACE ∧ s.pos ≤ t.pos.lo ∧ t.pos.lo ≤ t.pos.hi ∧ t.pos.hi = s'.pos ∧
      (t.kind = .EOF → s'.cursor.rest = [] ∧ t.pos = ⟨s'.pos, s'.pos⟩) ∧
      (t.kind ≠ .EOF → s'.cursor.rest.length < s.cursor.rest.length) := by
  induction fuel using Nat.strong_induction_on with
  | _ fuel IH =>
    intro s hwf hlt
    match fuel with
    | n + 1 =>
      obtain ⟨t0, s0, heq, hwf0, hsrc0, hp0, hle0, heof0, hprog0⟩ := next_token_inner_spec s hwf
      simp only [next_token_loop, heq]
      by_cases hW : t0.kind = .WHITESPACE
      · rw [if_pos hW]
        have hne : t0.kind ≠ .EOF := by
          rw [hW]
          decide
        have hlt0 := hprog0 hne
        obtain ⟨t, s', heq', hwf', hsrc', hnw, hlo, hlohi, hhi, heof, hprog⟩ :=
          IH n (Nat.lt_succ_self _) s0 hwf0 (by omega)
        refine ⟨t, s', heq', hwf', hsrc'.trans hsrc0, hnw, Nat.le_trans hle0 hlo, hlohi, hhi,
          heof, ?_⟩
        intro hne'
        exact Nat.lt_trans (hprog hne') hlt0
      · rw [if_neg hW]
        refine ⟨t0, s0, rfl, hwf0, hsrc0, hW, ?_, ?_, ?_, ?_, hprog0⟩
        · rw [hp0]
        · rw [hp0]
          exact hle0
        · rw [hp0]
        · intro hk
          obtain ⟨he1, he2⟩ := heof0 hk
          subst he1
          exact ⟨he2, by rw [hp0]⟩

theorem next_token_spec (s : StringReader) (hwf : WF s) :
    ∃ t s', next_token s = some (t, s') ∧ WF s' ∧ s'.src = s.src ∧
      ¬ t.kind = .WHITESPACE ∧ s.pos ≤ t.pos.lo ∧ t.pos.lo ≤ t.pos.hi ∧ t.pos.hi = s'.pos ∧
      (t.kind = .EOF → s'.cursor.rest = [] ∧ t.pos = ⟨s'.pos, s'.pos⟩) ∧
      (t.kind ≠ .EOF → s'.cursor.rest.length < s.cursor.rest.length) :=
  next_token_loop_spec (s.cursor.rest.length + 1) s hwf (Nat.lt_succ_self _)

theorem raw_tokens_loop_congr (f1 : Nat) : ∀ (f2 : Nat) (s : StringReader), WF s →
    s.cursor.rest.length < f1 → s.cursor.rest.length < f2 →
    raw_tokens_loop f1 s = raw_tokens_loop f2 s := by
  induction f1 using Nat.strong_induction_on with
  | _ f1 IH =>
    intro f2 s hwf h1 h2
    match f1, f2 with
    | n1 + 1, n2 + 1 =>
      obtain ⟨t, s', heq, hwf', hsrc, hp, hle, heof, hprog⟩ := next_token_inner_spec s hwf
      simp only [raw_tokens_loop, heq]
      by_cases hE : t.kind = .EOF
      · rw [if_pos hE, if_pos hE]
      · rw [if_neg hE, if_neg hE]
        have hlt := hprog hE
        rw [IH n1 (Nat.lt_succ_self _) n2 s' hwf' (by omega) (by omega)]

theorem raw_tokens_loop_spec (fuel : Nat) : ∀ s : StringReader, WF s →
    s.cursor.rest.length < fuel →
    ∃ ts init, raw_tokens_loop fuel s = some ts ∧ spans_chain s.pos ts ∧
      ts = init ++ [⟨.EOF, ⟨utf8Len s.src, utf8Len s.src⟩⟩] := by
  induction fuel using Nat.strong_induction_on with
  | _ fuel IH =>
    intro s hwf hlt
    match fuel with
    | n + 1 =>
      obtain ⟨t, s', heq, hwf', hsrc, hp, hle, heof, hprog⟩ := next_token_inner_spec s hwf
      simp only [raw_tokens_loop, heq]
      by_cases hE : t.kind = .EOF
      · rw [if_pos hE]
        obtain ⟨hss, hrest⟩ := heof hE
        have hpos_tot : s.pos = utf8Len s.src := by
          obtain ⟨hadv, pre, hsrc2, hpos2⟩ := hwf
          rw [hrest, List.append_nil] at hsrc2
          rw [hpos2, hsrc2]
        refine ⟨[t], [], rfl, ⟨?_, ?_, trivial⟩, ?_⟩
        · rw [hp]
        · rw [hp, hss]
        · simp only [List.nil_append, List.cons.injEq, and_true]
          cases t with
          | mk kind pos =>
            simp only at hE hp
            rw [hE, hp, hss, hpos_tot]
      · rw [if_neg hE]
        have hlt' := hprog hE
        obtain ⟨ts0, init0, e0, chain0, last0⟩ := IH n (Nat.lt_succ_self _) s' hwf' (by omega)
        rw [e0]
        refine ⟨t :: ts0, t :: init0, rfl, ⟨?_, ?_, ?_⟩, ?_⟩
        · rw [hp]
        · rw [hp]
          exact hle
        · rw [hp]
          exact chain0
        · rw [hsrc] at last0
          rw [last0]
          simp

theorem tokens_loop_congr (f1 : Nat) : ∀ (f2 : Nat) (s : StringReader), WF s →
    s.cursor.rest.length < f1 → s.cursor.rest.length < f2 →
    tokens_loop f1 s = tokens_loop f2 s := by
  induction f1 using Nat.strong_induction_on with
  | _ f1 IH =>
    intro f2 s hwf h1 h2
    match f1, f2 with
    | n1 + 1, n2 + 1 =>
      obtain ⟨t, s', heq, hwf', hsrc, hnw, hlo, hlohi, hhi, heof, hprog⟩ := next_token_spec s hwf
      simp only [tokens_loop, heq]
      by_cases hE : t.kind = .EOF
      · rw [if_pos hE, if_pos hE]
      · rw [if_neg hE, if_neg hE]
        have hlt := hprog hE
        rw [IH n1 (Nat.lt_succ_self _) n2 s' hwf' (by omega) (by omega)]

theorem next_token_ws_step (s : StringReader) (hwf : WF s) (t0 : Token) (s0 : StringReader)
    (heq : next_token_inner s = some (t0, s0)) (hW : t0.kind = .WHITESPACE) :
    next_token s = next_token s0 := by
  obtain ⟨t1, s1, heq1, hwf1, hsrc1, hp1, hle1, heof1, hprog1⟩ := next_token_inner_spec s hwf
  rw [heq] at heq1
  simp only [Option.some.injEq, Prod.mk.injEq] at heq1
  obtain ⟨ht, hs⟩ := heq1
  subst ht
  subst hs
  have hneof : t0.kind ≠ .EOF := by
    rw [hW]
    decide
  have hlt0 := hprog1 hneof
  unfold next_token
  rw [show next_token_loop (s.cursor.rest.length + 1) s
      = next_token_loop (s.cursor.rest.length) s0 by
    simp only [next_token_loop, heq, if_pos hW]]
  exact next_token_loop_congr _ _ s0 hwf1 hlt0 (Nat.lt_succ_self _)

theorem next_token_vis_step (s : StringReader) (t0 : Token) (s0 : StringReader)
    (heq : next_token_inner s = some (t0, s0)) (hNW : ¬ t0.kind = .WHITESPACE) :
    next_token s = some (t0, s0) := by
  unfold next_token
  simp only [next_token_loop, heq, if_neg hNW]

theorem tokens_loop_eq_of_next_eq (sA sB : StringReader) (hwfA : WF sA) (hwfB : WF sB)
    (hnt : next_token sA = next_token sB) :
    tokens_loop (sA.cursor.rest.length + 1) sA = tokens_loop (sB.cursor.rest.length + 1) sB := by
  obtain ⟨t, s', heqA, hwf', hsrc', hnw, hlo, hlohi, hhi, heof, hprogA⟩ := next_token_spec sA hwfA
  have heqB : next_token sB = some (t, s') := by rw [← hnt, heqA]
  obtain ⟨tB, sB', heqB', a1, a2, a3, a4, a5, a6, a7, hprogB⟩ := next_token_spec sB hwfB
  rw [heqB] at heqB'
  simp only [Option.some.injEq, Prod.mk.injEq] at heqB'
  obtain ⟨ht, hs⟩ := heqB'
  subst ht
  subst hs
  simp only [tokens_loop, heqA, heqB]
  by_cases hE : t.kind = .EOF
  · rw [if_pos hE, if_pos hE]
  · rw [if_neg hE, if_neg hE]
    rw [tokens_loop_congr (sA.cursor.rest.length) (sB.cursor.rest.length) s' hwf'
      (hprogA hE) (hprogB hE)]

/-- The filter that removes the internal WHITESPACE markers from the raw iteration
stream; what remains is exactly the visible token stream. -/
def notWS (t : Token) : Bool := ! decide (t.kind = .WHITESPACE)

theorem stream_filter (n : Nat) : ∀ s : StringReader, WF s → s.cursor.rest.length ≤ n →
    ∃ ts vis, raw_tokens_loop (s.cursor.rest.length + 1) s = some ts ∧
      tokens_loop (s.cursor.rest.length + 1) s = some vis ∧
      vis = ts.filter notWS := by
  induction n using Nat.strong_induction_on with
  | _ n IH =>
    intro s hwf hle
    obtain ⟨t0, s0, heq, hwf0, hsrc0, hp0, hle0, heof0, hprog0⟩ := next_token_inner_spec s hwf
    by_cases hW : t0.kind = .WHITESPACE
    · have hneof : t0.kind ≠ .EOF := by
        rw [hW]
        decide
      have hlt0 := hprog0 hneof
      obtain ⟨ts0, vis0, eraw0, evis0, efil0⟩ :=
        IH s0.cursor.rest.length (by omega) s0 hwf0 (Nat.le_refl _)
      refine ⟨t0 :: ts0, vis0, ?_, ?_, ?_⟩
      · simp only [raw_tokens_loop, heq]
        rw [if_neg hneof,
          raw_tokens_loop_congr (s.cursor.rest.length) (s0.cursor.rest.length + 1) s0 hwf0
            hlt0 (Nat.lt_succ_self _),
          eraw0]
      · rw [tokens_loop_eq_of_next_eq s s0 hwf hwf0 (next_token_ws_step s hwf t0 s0 heq hW),
          evis0]
      · simp [List.filter_cons, notWS, hW, efil0]
    · have hnt : next_token s = some (t0, s0) := next_token_vis_step s t0 s0 heq hW
      by_cases hE : t0.kind = .EOF
      · refine ⟨[t0], [t0], ?_, ?_, ?_⟩
        · simp only [raw_tokens_loop, heq]
          rw [if_pos hE]
        · simp only [tokens_loop, hnt]
          rw [if_pos hE]
        · simp [List.filter, notWS, hW]
      · have hlt0 := hprog0 hE
        obtain ⟨ts0, vis0, eraw0, evis0, efil0⟩ :=
          IH s0.cursor.rest.length (by omega) s0 hwf0 (Nat.le_refl _)
        refine ⟨t0 :: ts0, t0 :: vis0, ?_, ?_, ?_⟩
        · simp only [raw_tokens_loop, heq]
          rw [if_neg hE,
            raw_tokens_loop_congr (s.cursor.rest.length) (s0.cursor.rest.length + 1) s0 hwf0
              hlt0 (Nat.lt_succ_self _),
            eraw0]
        · simp only [tokens_loop, hnt]
          rw [if_neg hE,
            tokens_loop_congr (s.cursor.rest.length) (s0.cursor.rest.length + 1) s0 hwf0
              hlt0 (Nat.lt_succ_self _),
            evis0]
        · simp [List.filter_cons, notWS, hW, efil0]

theorem slash_star (r : List Char) (acc : Nat) :
    slash ( '*' :: r) acc = cook_comment ( '*' :: r) acc := by
  simp [slash, peekFirst]

/-- Claim C1: for every input source string, including non-ASCII text, every call to
next_token returns normally and never panics: a fresh reader is well formed, and from
any well formed reader state next_token returns some token (none would model the panic
of the byte slicing inside cook_identifier) and preserves well-formedness, so every call
in every chain of calls returns normally. -/
theorem claim_C1 :
    (∀ src : List Char, WF (new_reader src)) ∧
    (∀ s : StringReader, WF s → ∃ t s', next_token s = some (t, s') ∧ WF s') := by
  refine ⟨wf_new, fun s hwf => ?_⟩
  obtain ⟨t, s', heq, hwf', _⟩ := next_token_spec s hwf
  exact ⟨t, s', heq, hwf'⟩

theorem claim_C1_witness :
    WF ⟨ "é ab".data, ⟨[ ' ', 'a', 'b' ], 0⟩, 2⟩ ∧
    ∃ t s', next_token ⟨ "é ab".data, ⟨[ ' ', 'a', 'b' ], 0⟩, 2⟩ = some (t, s') ∧ WF s' :=
  ⟨⟨rfl, [ 'é' ], by decide, by decide⟩,
    claim_C1.2 ⟨ "é ab".data, ⟨[ ' ', 'a', 'b' ], 0⟩, 2⟩ ⟨rfl, [ 'é' ], by decide, by decide⟩⟩

/-- Claim C2: for every source string, the spans of the tokens of successive next_token
calls until EOF, together with the internally skipped whitespace runs (surfaced in the
raw iteration stream, which still consume positions), tile the source with no gaps and
no overlaps: every span has lo at the running position and lo at most hi, the next span
starts at the previous hi, the stream ends with the EOF token whose empty span sits at
the full byte length of the source, and the visible stream of next_token is exactly the
raw stream with the WHITESPACE markers filtered out. -/
theorem claim_C2 (src : List Char) :
    ∃ ts init, raw_tokens src = some ts ∧ spans_chain 0 ts ∧
      ts = init ++ [⟨.EOF, ⟨utf8Len src, utf8Len src⟩⟩] ∧
      lexAll src = some (ts.filter notWS) := by
  obtain ⟨ts, init, eraw, chain, hlast⟩ :=
    raw_tokens_loop_spec (src.length + 1) (new_reader src) (wf_new src) (Nat.lt_succ_self _)
  obtain ⟨ts2, vis, eraw2, evis, efil⟩ :=
    stream_filter src.length (new_reader src) (wf_new src) (Nat.le_refl _)
  have eraw2' : raw_tokens_loop (src.length + 1) (new_reader src) = some ts2 := eraw2
  rw [eraw] at eraw2'
  injection eraw2' with hts
  subst hts
  refine ⟨ts, init, eraw, chain, hlast, ?_⟩
  have evis' : tokens_loop (src.length + 1) (new_reader src) = some vis := evis
  show tokens_loop (src.length + 1) (new_reader src) = some (ts.filter notWS)
  rw [evis', efil]

/-- Claim C3: next_token terminates for every source string and reachable state: from
any well formed state it returns a token, and any loop fuel beyond the remaining
character count gives that same result, so the whitespace loop never runs unboundedly.
Comment scanning always terminates and always returns COMMENT having consumed a prefix
of the remaining input, and on the unterminated nested comment input the whole comment
to end-of-input becomes one COMMENT token followed by EOF. -/
theorem claim_C3 :
    (∀ s : StringReader, WF s → ∃ t s', next_token s = some (t, s')) ∧
    (∀ (fuel : Nat) (s : StringReader), WF s → s.cursor.rest.length < fuel →
      next_token_loop fuel s = next_token s) ∧
    (∀ (r : List Char) (acc : Nat), ∃ mid r1,
      cook_comment r acc = (.COMMENT, r1, acc + utf8Len mid) ∧ r = mid ++ r1) ∧
    lexAll ( "/* a /* b".data ) = some [⟨.COMMENT, ⟨0, 9⟩⟩, ⟨.EOF, ⟨9, 9⟩⟩] := by
  refine ⟨?_, ?_, cook_comment_spec, by decide⟩
  · intro s hwf
    obtain ⟨t, s', heq, _⟩ := next_token_spec s hwf
    exact ⟨t, s', heq⟩
  · intro fuel s hwf hlt
    exact next_token_loop_congr fuel (s.cursor.rest.length + 1) s hwf hlt (Nat.lt_succ_self _)

theorem claim_C3_witness :
    (∃ t s', next_token (new_reader ( "/* a /* b".data )) = some (t, s')) ∧
    next_token_loop 100 (new_reader ( "/* a /* b".data ))
      = next_token (new_reader ( "/* a /* b".data )) :=
  ⟨claim_C3.1 (new_reader ( "/* a /* b".data )) ⟨rfl, [], rfl, rfl⟩,
    claim_C3.2.1 100 (new_reader ( "/* a /* b".data )) ⟨rfl, [], rfl, rfl⟩ (by decide)⟩

/-- Claim C4: scanning the open curly brace character produces the token kind RCURLY and
scanning the close curly brace character produces LCURLY, each as a single-character
token, exactly the inverted mapping the spec pins as current behavior. -/
theorem claim_C4 :
    lexAll ( "\x7b".data ) = some [⟨.RCURLY, ⟨0, 1⟩⟩, ⟨.EOF, ⟨1, 1⟩⟩] ∧
    lexAll ( "\x7d".data ) = some [⟨.LCURLY, ⟨0, 1⟩⟩, ⟨.EOF, ⟨1, 1⟩⟩] := by
  exact ⟨by decide, by decide⟩

/-- Claim C5: comment scanning is entered only from the slash handler on a slash-star
lookahead, with the depth counter starting at 1; a further slash-star increments it, a
star-slash decrements it, and scanning ends when the counter reaches 0; consequently the
nested comment input produces exactly one COMMENT token spanning the full nested
comment, then an INT token covering the digit, then EOF. -/
theorem claim_C5 :
    (∀ (r : List Char) (acc : Nat), slash ( '*' :: r) acc = cook_comment ( '*' :: r) acc) ∧
    (∀ (r : List Char) (acc : Nat), cook_comment r acc = cook_comment_loop r 1 acc) ∧
    (∀ (r : List Char) (lvl : Int) (acc : Nat),
      cook_comment_loop ( '/' :: '*' :: r) lvl acc = cook_comment_loop r (lvl + 1) (acc + 2)) ∧
    (∀ (r : List Char) (lvl : Int) (acc : Nat), lvl ≠ 1 →
      cook_comment_loop ( '*' :: '/' :: r) lvl acc = cook_comment_loop r (lvl - 1) (acc + 2)) ∧
    (∀ (r : List Char) (acc : Nat),
      cook_comment_loop ( '*' :: '/' :: r) 1 acc = (.COMMENT, r, acc + 2)) ∧
    lexAll ( "/* a /* b */ c */ 5".data ) =
      some [⟨.COMMENT, ⟨0, 17⟩⟩, ⟨.INT, ⟨18, 19⟩⟩, ⟨.EOF, ⟨19, 19⟩⟩] := by
  refine ⟨slash_star, fun r acc => rfl, ccl_open, ?_, ?_, by decide⟩
  · intro r lvl acc h
    rw [ccl_close, if_neg (by omega : ¬(lvl - 1 = 0))]
  · intro r acc
    rw [ccl_close, if_pos (by decide : (1 : Int) - 1 = 0)]

theorem claim_C5_witness :
    cook_comment_loop ( '*' :: '/' :: []) 2 0 = cook_comment_loop [] (2 - 1) (0 + 2) :=
  claim_C5.2.2.2.1 [] 2 0 (by decide)

/-- Claim C6: number scanning consumes digits, a first dot is consumed and switches the
classification from INT to FLOAT, a second dot is not consumed and ends the literal;
therefore the input with two dots yields a FLOAT spanning the first four bytes, then a
DOT token, then an INT spanning the final digits, then EOF. -/
theorem claim_C6 :
    (∀ (c : Char) (r : List Char) (df : Bool) (acc : Nat), isDigitChar c = true →
      cook_number (c :: r) df acc = cook_number r df (acc + c.utf8Size)) ∧
    (∀ (r : List Char) (acc : Nat),
      cook_number ( '.' :: r) false acc = cook_number r true (acc + 1)) ∧
    (∀ (r : List Char) (acc : Nat),
      cook_number ( '.' :: r) true acc = (.FLOAT, '.' :: r, acc)) ∧
    lexAll ( "3.14.15".data ) =
      some [⟨.FLOAT, ⟨0, 4⟩⟩, ⟨.DOT, ⟨4, 5⟩⟩, ⟨.INT, ⟨5, 7⟩⟩, ⟨.EOF, ⟨7, 7⟩⟩] := by
  refine ⟨?_, fun r acc => rfl, fun r acc => rfl, by decide⟩
  intro c r df acc h
  rw [cook_number, if_pos h]

theorem claim_C6_witness :
    cook_number ( '7' :: []) false 1 = cook_number [] false (1 + ( '7' ).utf8Size) :=
  claim_C6.1 '7' [] false 1 (by decide)

/-- Claim C7: string scanning consumes characters until a closing quote and returns
STRING; a backslash immediately followed by a backslash or a quote is an escape pair
whose two characters are consumed without terminating the string; scanning always
consumes a prefix and returns STRING or UNKNOWN, and UNKNOWN arises exactly when input
is exhausted, having consumed everything to end-of-input; on the unterminated input the
result is a single UNKNOWN token spanning from the opening quote to end-of-input,
followed by EOF. -/
theorem claim_C7 :
    (∀ (r : List Char) (acc : Nat), cook_string ( '"' :: r) acc = (.STRING, r, acc + 1)) ∧
    (∀ (c2 : Char) (r : List Char) (acc : Nat), c2 = '\\' ∨ c2 = '"' →
      cook_string ( '\\' :: c2 :: r) acc = cook_string r (acc + 1 + c2.utf8Size)) ∧
    (∀ (r : List Char) (acc : Nat), ∃ k mid r1,
      cook_string r acc = (k, r1, acc + utf8Len mid) ∧ r = mid ++ r1 ∧
        (k = .STRING ∨ (k = .UNKNOWN ∧ r1 = []))) ∧
    lexAll ( "\"abc".data ) = some [⟨.UNKNOWN, ⟨0, 4⟩⟩, ⟨.EOF, ⟨4, 4⟩⟩] :=
  ⟨fun r acc => cook_string_quote '"' r acc rfl,
    fun c2 r acc h => cook_string_esc c2 r acc h,
    cook_string_spec, by decide⟩

theorem claim_C7_witness :
    cook_string ( '\\' :: '"' :: []) 1 = cook_string [] (1 + 1 + ( '"' ).utf8Size) :=
  claim_C7.2.1 '"' [] 1 (Or.inr rfl)

/-- Claim C8: each reserved word of the keyword list, scanned alone as the whole input,
yields its specific keyword token kind and never ID; keyword matching is case sensitive
and exact, so the case variant If yields ID, and any lexeme outside the keyword list
maps to ID. (The claim and the spec speak of 16 reserved words but enumerate this
17-word list; the enumerated list is what the code implements.) -/
theorem claim_C8 :
    (lexAll ( "array".data ) = some [⟨.ARRAY, ⟨0, 5⟩⟩, ⟨.EOF, ⟨5, 5⟩⟩] ∧
     lexAll ( "if".data ) = some [⟨.IF, ⟨0, 2⟩⟩, ⟨.EOF, ⟨2, 2⟩⟩] ∧
     lexAll ( "then".data ) = some [⟨.THEN, ⟨0, 4⟩⟩, ⟨.EOF, ⟨4, 4⟩⟩] ∧
     lexAll ( "else".data ) = some [⟨.ELSE, ⟨0, 4⟩⟩, ⟨.EOF, ⟨4, 4⟩⟩] ∧
     lexAll ( "while".data ) = some [⟨.WHILE, ⟨0, 5⟩⟩, ⟨.EOF, ⟨5, 5⟩⟩] ∧
     lexAll ( "for".data ) = some [⟨.FOR, ⟨0, 3⟩⟩, ⟨.EOF, ⟨3, 3⟩⟩] ∧
     lexAll ( "to".data ) = some [⟨.TO, ⟨0, 2⟩⟩, ⟨.EOF, ⟨2, 2⟩⟩] ∧
     lexAll ( "do".data ) = some [⟨.DO, ⟨0, 2⟩⟩, ⟨.EOF, ⟨2, 2⟩⟩] ∧
     lexAll ( "let".data ) = some [⟨.LET, ⟨0, 3⟩⟩, ⟨.EOF, ⟨3, 3⟩⟩] ∧
     lexAll ( "in".data ) = some [⟨.IN, ⟨0, 2⟩⟩, ⟨.EOF, ⟨2, 2⟩⟩] ∧
     lexAll ( "end".data ) = some [⟨.END, ⟨0, 3⟩⟩, ⟨.EOF, ⟨3, 3⟩⟩] ∧
     lexAll ( "of".data ) = some [⟨.OF, ⟨0, 2⟩⟩, ⟨.EOF, ⟨2, 2⟩⟩] ∧
     lexAll ( "break".data ) = some [⟨.BREAK, ⟨0, 5⟩⟩, ⟨.EOF, ⟨5, 5⟩⟩] ∧
     lexAll ( "function".data ) = some [⟨.FUNCTION, ⟨0, 8⟩⟩, ⟨.EOF, ⟨8, 8⟩⟩] ∧
     lexAll ( "var".data ) = some [⟨.VAR, ⟨0, 3⟩⟩, ⟨.EOF, ⟨3, 3⟩⟩] ∧
     lexAll ( "type".data ) = some [⟨.TYPE, ⟨0, 4⟩⟩, ⟨.EOF, ⟨4, 4⟩⟩] ∧
     lexAll ( "nil".data ) = some [⟨.NIL, ⟨0, 3⟩⟩, ⟨.EOF, ⟨3, 3⟩⟩] ∧
     lexAll ( "If".data ) = some [⟨.ID, ⟨0, 2⟩⟩, ⟨.EOF, ⟨2, 2⟩⟩]) ∧
    (∀ w : String, ¬ w ∈ keyword_list → keyword_kind w = .ID) := by
  refine ⟨?_, keyword_kind_not_mem⟩
  repeat' apply And.intro
  all_goals decide

theorem claim_C8_witness : keyword_kind "If" = .ID :=
  claim_C8.2 "If" (by decide)

/-- Claim C9: once next_token has returned an EOF token from a well formed reader, that
token has the zero-width span at the end position, and the call leaves the reader at a
fixed point: the next call returns the very same EOF token and state, hence so does
every subsequent call. -/
theorem claim_C9 (s : StringReader) (hwf : WF s) (t : Token) (s' : StringReader)
    (heq : next_token s = some (t, s')) (hk : t.kind = .EOF) :
    t.pos = ⟨s'.pos, s'.pos⟩ ∧ next_token s' = some (t, s') := by
  obtain ⟨t1, s1, heq1, hwf1, hsrc1, hnw1, hlo1, hlohi1, hhi1, heof1, hprog1⟩ :=
    next_token_spec s hwf
  rw [heq] at heq1
  simp only [Option.some.injEq, Prod.mk.injEq] at heq1
  obtain ⟨ht, hs⟩ := heq1
  subst ht
  subst hs
  obtain ⟨hrest, hp⟩ := heof1 hk
  refine ⟨hp, ?_⟩
  have hinner : next_token_inner s' = some (⟨.EOF, ⟨s'.pos, s'.pos⟩⟩, s') :=
    next_token_inner_nil s' hrest
  have ht' : t = ⟨.EOF, ⟨s'.pos, s'.pos⟩⟩ := by
    cases t with
    | mk kind pos =>
      simp only at hk hp
      rw [hk, hp]
  rw [ht']
  exact next_token_vis_step s' ⟨.EOF, ⟨s'.pos, s'.pos⟩⟩ s' hinner
    (by intro hcon; exact TokenKind.noConfusion hcon)

theorem claim_C9_witness :
    (⟨.EOF, ⟨0, 0⟩⟩ : Token).pos = ⟨(new_reader []).pos, (new_reader []).pos⟩ ∧
    next_token (new_reader []) = some (⟨.EOF, ⟨0, 0⟩⟩, new_reader []) :=
  claim_C9 (new_reader []) ⟨rfl, [], rfl, rfl⟩ ⟨.EOF, ⟨0, 0⟩⟩ (new_reader [])
    (by decide) rfl

/-- Claim C10: the slash handler enters comment scanning having consumed only the slash,
with the star of the opening pair still unconsumed in the remaining input, so that same
star can match as the start of a closing star-slash pair: the three-character input of
slash, star, slash lexes as a single COMMENT token spanning all three characters
followed by EOF, not as an unterminated comment. -/
theorem claim_C10 :
    (∀ (r : List Char) (acc : Nat), slash ( '*' :: r) acc = cook_comment ( '*' :: r) acc) ∧
    lexAll ( "/*/".data ) = some [⟨.COMMENT, ⟨0, 3⟩⟩, ⟨.EOF, ⟨3, 3⟩⟩] :=
  ⟨slash_star, by decide⟩

end Lexer
